import Mathlib

/-!
# Verification of the kw-plugin core

A shallow embedding, in Lean 4, of the core of the `kw-plugin` repository:
the magic-keyword engine (`src/features/magic-keywords.ts`), the layered
configuration loader (`src/config/loader.ts`) and the file-based state
manager (`src/state/manager.ts`), together with theorems about the
behaviours the design document promises.

Machine-level conventions of the embedding:
* JavaScript strings are Lean `String`s (scanned as `List Char`).
* JavaScript numbers that the code uses integrally (keyword priorities,
  `parseInt` results, config numbers) are Lean `Int`s.
* The synchronous filesystem is an association list from absolute path to
  file content; a missing entry models a missing file.
* `JSON.parse`/`JSON.stringify` are Node builtins, not repository code, so
  fallible parsing is modelled by abstract `String → Option α` functions
  (`none` models a thrown exception) wherever the repository calls them.
-/

namespace KwPlugin

/-- A magic keyword record, from `MagicKeyword` in `src/shared/types.ts`:
`name`, `triggers`, `priority`, `instruction`, and the optional `skill`
and `skillArgs` fields. -/
structure MagicKeyword where
  name : String
  triggers : List String
  priority : Int
  instruction : String
  skill : Option String := none
  skillArgs : Option String := none
deriving DecidableEq, Repr

/-- The `hookSpecificOutput` payload of `UserPromptSubmitOutput` in
`src/shared/types.ts`. -/
structure HookSpecific where
  hookEventName : String
  additionalContext : String
deriving DecidableEq, Repr

/-- `UserPromptSubmitOutput` from `src/shared/types.ts`: a `continue`
boolean plus an optional side-channel block. -/
structure UserPromptSubmitOutput where
  «continue» : Bool
  hookSpecificOutput : Option HookSpecific := none
deriving DecidableEq, Repr

/-- The `features` section of `PluginConfig` (`src/shared/types.ts`). -/
structure PluginFeatures where
  sessionStartContext : Option Bool := none
  magicKeywords : Option Bool := none
deriving DecidableEq, Repr

/-- The `permissions` section of `PluginConfig` (`src/shared/types.ts`). -/
structure PluginPermissions where
  maxBackgroundTasks : Option Int := none
deriving DecidableEq, Repr

/-- `PluginConfig` from `src/shared/types.ts`, as consumed by the keyword
engine: every field optional; `magicKeywords` maps keyword names to
override trigger lists (a JS record, embedded as an association list). -/
structure PluginConfig where
  features : Option PluginFeatures := none
  permissions : Option PluginPermissions := none
  magicKeywords : Option (List (String × List String)) := none
deriving DecidableEq, Repr

/-! ## Prompt sanitization (`sanitizePrompt`)

Each regex replace in the source is one left-to-right scan over the input
that removes every non-overlapping match, exactly as a global
`String.replace` does: matches are located in the original string, and a
pass never rescans the text it has already produced. -/

/-- Earliest index at which `pat` occurs in `s` (`none` if it does not). -/
def findSub (pat : List Char) : List Char → Option Nat
  | [] => if pat.isPrefixOf [] then some 0 else none
  | c :: t => if pat.isPrefixOf (c :: t) then some 0 else (findSub pat t).map (· + 1)

/-- The `\x60\x60\x60` fence delimiter as a character list. -/
def fenceChars : List Char := ['`', '`', '`']

/-- Pass 1 of `sanitizePrompt`: remove fenced code blocks, the global
replace of `/\x60\x60\x60[\s\S]*?\x60\x60\x60/`.  At each fence opener the
non-greedy body ends at the earliest closing fence; with no closing fence
there is no match anywhere, and the scan resumes after each removal.
The fuel argument only bounds the number of removals (each removal
consumes at least six characters), so `stripFenced` hands the scan the
input length, which is always sufficient. -/
def stripFencedAux : Nat → List Char → List Char
  | 0, s => s
  | fuel + 1, s =>
    match findSub fenceChars s with
    | none => s
    | some i =>
      match findSub fenceChars (s.drop (i + 3)) with
      | none => s
      | some j => s.take i ++ stripFencedAux fuel ((s.drop (i + 3)).drop (j + 3))

/-- Pass 1 of `sanitizePrompt` at its natural fuel. -/
def stripFenced (s : List Char) : List Char := stripFencedAux s.length s

/-- Pass 2 of `sanitizePrompt`: remove inline code spans, the global
replace of `/\x60[^\x60]+\x60/`: an opener, at least one non-backtick
character, and the next backtick as closer.  Fuel bounds the scan steps;
every step consumes at least one character. -/
def stripInlineAux : Nat → List Char → List Char
  | 0, s => s
  | _ + 1, [] => []
  | fuel + 1, ch :: t =>
    if ch = '`' then
      match t.findIdx? (· = '`') with
      | some j =>
        if 1 ≤ j then stripInlineAux fuel (t.drop (j + 1)) else ch :: stripInlineAux fuel t
      | none => ch :: stripInlineAux fuel t
    else ch :: stripInlineAux fuel t

/-- Pass 2 of `sanitizePrompt` at its natural fuel. -/
def stripInline (s : List Char) : List Char := stripInlineAux s.length s

/-- JS `\s` (whitespace), as the source's URL pass uses `\S`.  Embedded as
Lean's ASCII whitespace test; the two agree on all ASCII input. -/
def jsWhitespace (c : Char) : Bool := c.isWhitespace

/-- Length of the maximal prefix of `s` whose characters satisfy `p`. -/
def countWhile (p : Char → Bool) (s : List Char) : Nat := (s.takeWhile p).length

/-- The characters of the literal `http://` scheme prefix. -/
def httpChars : List Char := ['h', 't', 't', 'p', ':', '/', '/']

/-- The characters of the literal `https://` scheme prefix. -/
def httpsChars : List Char := ['h', 't', 't', 'p', 's', ':', '/', '/']

/-- Pass 3 of `sanitizePrompt`: remove URLs, the global replace of
`/https?:\/\/\S+/`: either scheme prefix followed by at least one
non-whitespace character, greedily to the end of the non-whitespace run.
Fuel bounds the scan steps; every step consumes at least one character. -/
def stripUrlsAux : Nat → List Char → List Char
  | 0, s => s
  | _ + 1, [] => []
  | fuel + 1, ch :: t =>
    if httpsChars.isPrefixOf (ch :: t) then
      if 1 ≤ countWhile (fun c => !jsWhitespace c) ((ch :: t).drop 8) then
        stripUrlsAux fuel ((ch :: t).drop (8 + countWhile (fun c => !jsWhitespace c) ((ch :: t).drop 8)))
      else ch :: stripUrlsAux fuel t
    else if httpChars.isPrefixOf (ch :: t) then
      if 1 ≤ countWhile (fun c => !jsWhitespace c) ((ch :: t).drop 7) then
        stripUrlsAux fuel ((ch :: t).drop (7 + countWhile (fun c => !jsWhitespace c) ((ch :: t).drop 7)))
      else ch :: stripUrlsAux fuel t
    else ch :: stripUrlsAux fuel t

/-- Pass 3 of `sanitizePrompt` at its natural fuel. -/
def stripUrls (s : List Char) : List Char := stripUrlsAux s.length s

/-- JS `\w`: ASCII letters, digits and underscore (stated on code
points). -/
def isWordChar (c : Char) : Bool :=
  decide ((65 ≤ c.toNat ∧ c.toNat ≤ 90) ∨ (97 ≤ c.toNat ∧ c.toNat ≤ 122) ∨
    (48 ≤ c.toNat ∧ c.toNat ≤ 57) ∨ c.toNat = 95)

/-- A character of the `[\w.-]` class in the path regex. -/
def isPathChar (c : Char) : Bool := isWordChar c || c = '.' || c = '-'

/-- One repetition of the path-regex unit `\.?\/[\w.-]+` at the head of
`s`: its consumed length, or `none` when the unit does not match. -/
def pathUnit : List Char → Option Nat
  | '.' :: '/' :: rest =>
    if 1 ≤ countWhile isPathChar rest then some (2 + countWhile isPathChar rest) else none
  | '/' :: rest =>
    if 1 ≤ countWhile isPathChar rest then some (1 + countWhile isPathChar rest) else none
  | _ => none

/-- Greedy run of path units at the head of `s`: the number of units and
the total length consumed.  Fuel bounds the unit count; every unit
consumes at least two characters. -/
def pathUnitsAux : Nat → List Char → Nat × Nat
  | 0, _ => (0, 0)
  | fuel + 1, s =>
    match pathUnit s with
    | none => (0, 0)
    | some n =>
      let p := pathUnitsAux fuel (s.drop n)
      (p.1 + 1, n + p.2)

/-- Greedy run of path units at its natural fuel. -/
def pathUnits (s : List Char) : Nat × Nat := pathUnitsAux s.length s

/-- Pass 4 of `sanitizePrompt`: remove path-like tokens, the global
replace of `/(?:\.?\/[\w.-]+)\x7b2,\x7d/`: two or more consecutive path
units, consumed greedily.  Fuel bounds the scan steps; every step
consumes at least one character. -/
def stripPathsAux : Nat → List Char → List Char
  | 0, s => s
  | _ + 1, [] => []
  | fuel + 1, ch :: t =>
    if 2 ≤ (pathUnits (ch :: t)).1 then stripPathsAux fuel ((ch :: t).drop (pathUnits (ch :: t)).2)
    else ch :: stripPathsAux fuel t

/-- Pass 4 of `sanitizePrompt` at its natural fuel. -/
def stripPaths (s : List Char) : List Char := stripPathsAux s.length s

/-- Pass 5 of `sanitizePrompt`: remove tag-like markup, the global replace
of `/<[^>]+>/`: an opening angle bracket, at least one character other
than a closing bracket, and the next closing bracket.  Fuel bounds the
scan steps; every step consumes at least one character. -/
def stripTagsAux : Nat → List Char → List Char
  | 0, s => s
  | _ + 1, [] => []
  | fuel + 1, ch :: t =>
    if ch = '<' then
      match t.findIdx? (· = '>') with
      | some j =>
        if 1 ≤ j then stripTagsAux fuel (t.drop (j + 1)) else ch :: stripTagsAux fuel t
      | none => ch :: stripTagsAux fuel t
    else ch :: stripTagsAux fuel t

/-- Pass 5 of `sanitizePrompt` at its natural fuel. -/
def stripTags (s : List Char) : List Char := stripTagsAux s.length s

/-- `sanitizePrompt` from `src/features/magic-keywords.ts`: strip fenced
code blocks, inline code, URLs, path-like tokens and XML-style tags, in
that order, each stripped span removed entirely. -/
def sanitizePrompt (prompt : String) : String :=
  ⟨stripTags (stripPaths (stripUrls (stripInline (stripFenced prompt.data))))⟩

/-! ## Keyword detection (`buildTriggerRegex` + `detectKeywords`)

`buildTriggerRegex` escapes every regex metacharacter in each trigger and
builds the case-insensitive pattern `\b(?:t1|t2|...)\b`; `RegExp.test`
then asks whether some alternative matches at some position with a word
boundary on each side.  The embedding states that existential directly:
triggers are matched as literal phrases (the escaping makes them literal),
case-insensitively, between two word boundaries. -/

/-- ASCII case folding on code points: uppercase letters fold to their
lowercase forms, everything else is left alone. -/
def caseFold (c : Char) : Nat :=
  if 65 ≤ c.toNat ∧ c.toNat ≤ 90 then c.toNat + 32 else c.toNat

/-- Case-insensitive character comparison, as the regex `i` flag
canonicalizes both sides (ASCII case folding; the prompts and triggers
the engine handles are ASCII). -/
def ciEq (a b : Char) : Bool := caseFold a = caseFold b

/-- `ciPrefix pat s`: the literal pattern `pat` matches case-insensitively
at the head of `s`. -/
def ciPrefix : List Char → List Char → Bool
  | [], _ => true
  | _ :: _, [] => false
  | p :: ps, c :: cs => ciEq p c && ciPrefix ps cs

/-- Is the character at index `i` of `s` a word character (out-of-range
positions count as non-word, as in JS `\b` evaluation)? -/
def wordAt (s : List Char) (i : Nat) : Bool :=
  match s.drop i with
  | [] => false
  | c :: _ => isWordChar c

/-- JS `\b` at position `i` of `s`: the word-character status changes
between the previous character and the current one (string edges count as
non-word). -/
def boundaryAt (s : List Char) (i : Nat) : Bool :=
  (if i = 0 then false else wordAt s (i - 1)) != wordAt s i

/-- One alternative of the trigger regex matches at position `i`:
the literal trigger `t` case-insensitively, with `\b` on each side. -/
def triggerMatchAt (s t : List Char) (i : Nat) : Bool :=
  ciPrefix t (s.drop i) && boundaryAt s i && boundaryAt s (i + t.length)

/-- `buildTriggerRegex(triggers).test(s)`: some trigger matches at some
position of `s`. -/
def regexTest (triggers : List String) (s : List Char) : Bool :=
  triggers.any fun tr => (List.range (s.length + 1)).any fun i => triggerMatchAt s tr.data i

/-- `detectKeywords` from `src/features/magic-keywords.ts`: sanitize the
prompt, keep the keywords whose trigger regex matches, and sort by
ascending `priority`.  The source's `matches.sort((a, b) => a.priority -
b.priority)` is ECMAScript's stable sort under the comparator `a.priority
- b.priority`, i.e. a stable merge sort by `a.priority ≤ b.priority`. -/
def detectKeywords (prompt : String) (keywords : List MagicKeyword) : List MagicKeyword :=
  let sanitized := (sanitizePrompt prompt).data
  let matched := keywords.filter fun kw => regexTest kw.triggers sanitized
  matched.mergeSort fun a b => a.priority ≤ b.priority

/-- Look up `overrides[name]` in a JS record of trigger overrides. -/
def lookupOverride (overrides : List (String × List String)) (name : String) :
    Option (List String) :=
  (overrides.find? fun p => p.1 == name).map (·.2)

/-- `applyKeywordOverrides` from `src/features/magic-keywords.ts`, at the
level of values.  `overrides = none` embeds the absent (`undefined`)
argument, on which the source returns early; otherwise each keyword whose
name appears in the record has its `triggers` replaced wholesale (a
present empty list is truthy in JS and does replace). -/
def applyKeywordOverrides (keywords : List MagicKeyword)
    (overrides : Option (List (String × List String))) : List MagicKeyword :=
  match overrides with
  | none => keywords
  | some ov =>
    keywords.map fun kw =>
      match lookupOverride ov kw.name with
      | some customTriggers => { kw with triggers := customTriggers }
      | none => kw

/-- Whether a JS function returned its array argument itself or allocated
a fresh array: `original` embeds `return keywords` (the same reference),
`fresh` embeds `keywords.map(...)` (a newly allocated array holding the
given value). -/
inductive ArrayResult (α : Type) where
  | original : ArrayResult α
  | fresh (value : List α) : ArrayResult α
deriving DecidableEq, Repr

/-- `applyKeywordOverrides` at the level of array references: the
`!overrides` early return hands back the argument array itself, every
other path allocates a fresh array via `.map`.  An empty overrides record
(`\x7b\x7d`) is truthy in JS, so it takes the `.map` path. -/
def applyKeywordOverridesRef (keywords : List MagicKeyword)
    (overrides : Option (List (String × List String))) : ArrayResult MagicKeyword :=
  match overrides with
  | none => ArrayResult.original
  | some ov =>
    ArrayResult.fresh (keywords.map fun kw =>
      match lookupOverride ov kw.name with
      | some customTriggers => { kw with triggers := customTriggers }
      | none => kw)

/-- JS truthiness of an optional string (`undefined` and the empty string
are falsy), as used by `if (kw.skill)` and `if (kw.skillArgs)`. -/
def truthyStr : Option String → Bool
  | none => false
  | some s => s ≠ ""

/-- The skill block appended for a single matched keyword. -/
def singleSkillLines (kw : MagicKeyword) : List String :=
  if truthyStr kw.skill then
    ["", "Skill: " ++ kw.skill.getD ""] ++
      (if truthyStr kw.skillArgs then ["Arguments: " ++ kw.skillArgs.getD ""] else []) ++
      ["", "IMPORTANT: Invoke the skill IMMEDIATELY using the Skill tool."]
  else []

/-- The per-keyword section emitted in the multi-match branch. -/
def multiKwLines (kw : MagicKeyword) : List String :=
  ["", "### " ++ kw.name.toUpper, kw.instruction] ++
    (if truthyStr kw.skill then
      ["Skill: " ++ kw.skill.getD ""] ++
        (if truthyStr kw.skillArgs then ["Arguments: " ++ kw.skillArgs.getD ""] else [])
    else [])

/-- `buildKeywordOutput` from `src/features/magic-keywords.ts`: the no-op
payload for zero matches, a single-keyword banner for one match, and a
multi-keyword banner plus per-keyword sections otherwise; `continue` is
`true` in every branch. -/
def buildKeywordOutput (matchedKeywords : List MagicKeyword) : UserPromptSubmitOutput :=
  match matchedKeywords with
  | [] => { «continue» := true }
  | [kw] =>
    let lines := ["[MAGIC KEYWORD: " ++ kw.name.toUpper ++ "]", "", kw.instruction] ++
      singleSkillLines kw
    { «continue» := true
      hookSpecificOutput := some
        { hookEventName := "UserPromptSubmit"
          additionalContext := String.intercalate "\n" lines } }
  | kws =>
    let names := String.intercalate ", " (kws.map fun k => k.name.toUpper)
    let body := kws.flatMap multiKwLines
    let skills := kws.filter fun k => truthyStr k.skill
    let lines := ["[MAGIC KEYWORDS: " ++ names ++ "]"] ++ body ++
      (if 0 < skills.length then
        ["", "IMPORTANT: Invoke all skills listed above using the Skill tool."]
      else [])
    { «continue» := true
      hookSpecificOutput := some
        { hookEventName := "UserPromptSubmit"
          additionalContext := String.intercalate "\n" lines } }

/-- `processKeywords` from `src/features/magic-keywords.ts`.  Loading
`keywords.json` from disk is I/O outside the pure pipeline; its result
(`loadKeywords` returns a possibly empty array on every failure) enters
the embedding as the `baseKeywords` argument.  The feature gate, the
empty-table short-circuit, the override application and the
detect-then-build pipeline follow the source. -/
def processKeywords (prompt : String) (config : Option PluginConfig)
    (baseKeywords : List MagicKeyword) : UserPromptSubmitOutput :=
  if ((config.bind (·.features)).bind (·.magicKeywords)) = some false then
    { «continue» := true }
  else if baseKeywords.length = 0 then
    { «continue» := true }
  else
    let keywords := applyKeywordOverrides baseKeywords (config.bind (·.magicKeywords))
    buildKeywordOutput (detectKeywords prompt keywords)

/-! ## Concrete keyword records used by examples and witnesses -/

/-- A concrete `review` keyword (priority 1, single trigger `review`). -/
def reviewKw : MagicKeyword :=
  { name := "review", triggers := ["review"], priority := 1,
    instruction := "Do a code review." }

/-- A concrete `thorough` keyword (priority 10, single trigger
`thorough`). -/
def thoroughKw : MagicKeyword :=
  { name := "thorough", triggers := ["thorough"], priority := 10,
    instruction := "Be thorough." }

/-! ## C3 — whole-word boundary semantics -/

/-- `occursOnlyInsideWords s t`: every case-insensitive occurrence of the
phrase `t` in `s` is a proper substring of a longer word: it is flanked,
on at least one side, by a word character of `s`. -/
def occursOnlyInsideWords (s t : List Char) : Bool :=
  (List.range (s.length + 1)).all fun i =>
    !(ciPrefix t (s.drop i)) ||
      ((decide (0 < i) && wordAt s (i - 1)) || wordAt s (i + t.length))

/-! ## C4 — priority sorting is ascending and stable -/

/-- The Boolean comparator under which the source's stable
`matches.sort((a, b) => a.priority - b.priority)` sorts. -/
def priorityLe (a b : MagicKeyword) : Bool := a.priority ≤ b.priority

/-! ## State manager (`src/state/manager.ts`)

All primitives are synchronous; the filesystem is an association list
from path to content read through `fsRead` (first binding wins, so a
prepended binding is an overwrite).  Directory creation always succeeds
in this model, so the write primitives model the source's successful
branch; read-side failures (missing file, parse exception) are modelled
faithfully. -/

/-- Scope discriminator `StateLocation` from `src/shared/types.ts`. -/
inductive StateLocation where
  | «local» : StateLocation
  | global : StateLocation
deriving DecidableEq, Repr

/-- The ambient process environment: `os.homedir()` and `process.cwd()`. -/
structure SysEnv where
  homedir : String
  processCwd : String
deriving DecidableEq, Repr

/-- `path.join` on two well-formed segments. -/
def pjoin (a b : String) : String := a ++ "/" ++ b

/-- The filesystem: an association list from absolute path to content. -/
abbrev FS := List (String × String)

/-- `readFileSync`/`existsSync`: the first binding for the path, if any. -/
def fsRead (fs : FS) (path : String) : Option String :=
  (fs.find? fun e => e.1 == path).map (·.2)

/-- `writeFileSync`: bind the path to new content (first binding wins). -/
def fsWrite (fs : FS) (path content : String) : FS := (path, content) :: fs

/-- `unlinkSync`: remove every binding for the path. -/
def fsErase (fs : FS) (path : String) : FS := fs.filter fun e => !(e.1 == path)

/-- JS `name.includes(c)` on a one-character needle, structurally on the
character list. -/
def strContains (s : String) (c : Char) : Bool := s.data.contains c

/-- JS `s.endsWith(suffix)`, structurally on the character lists. -/
def strEndsWith (s suffix : String) : Bool := suffix.data.isSuffixOf s.data

/-- JS `raw.split('\n')`, structurally on the character list: the list of
newline-separated segments (an empty string yields one empty segment). -/
def splitLines : List Char → List (List Char)
  | [] => [[]]
  | c :: t =>
    if c = '\n' then [] :: splitLines t
    else
      match splitLines t with
      | [] => [[c]]
      | l :: ls => (c :: l) :: ls

/-- JS `line.trim()`: strip whitespace from both ends. -/
def jsTrim (s : List Char) : List Char :=
  ((s.dropWhile jsWhitespace).reverse.dropWhile jsWhitespace).reverse

/-- `getStateDir` from `src/state/manager.ts`: `global` resolves under the
home config directory, `local` under the given project root (defaulting
to the current working directory). -/
def getStateDir (env : SysEnv) (location : StateLocation) (cwd : Option String) : String :=
  match location with
  | .global => pjoin (pjoin (pjoin env.homedir ".config") "kw-plugin") "state"
  | .«local» => pjoin (pjoin (cwd.getD env.processCwd) ".kw-plugin") "state"

/-- `getStatePath` from `src/state/manager.ts`: append `.json` when the
name carries no extension, keep it verbatim otherwise. -/
def getStatePath (env : SysEnv) (name : String) (location : StateLocation)
    (cwd : Option String) : String :=
  pjoin (getStateDir env location cwd)
    (if strContains name '.' then name else name ++ ".json")

/-- `StateReadResult` from `src/shared/types.ts`. -/
structure StateReadResult (α : Type) where
  «exists» : Bool
  data : Option α := none
  foundAt : Option String := none
deriving DecidableEq, Repr

/-- `StateWriteResult` from `src/shared/types.ts`. -/
structure StateWriteResult where
  success : Bool
  path : String
  error : Option String := none
deriving DecidableEq, Repr

/-- `readState` from `src/state/manager.ts`: missing file or a parse
exception (the `parse` stand-in for `JSON.parse` returning `none`) yields
`exists = false`; otherwise the parsed data and the path found. -/
def readState {α : Type} (parse : String → Option α) (env : SysEnv) (fs : FS) (name : String)
    (location : StateLocation := .«local») (cwd : Option String := none) :
    StateReadResult α :=
  let path := getStatePath env name location cwd
  match fsRead fs path with
  | none => { «exists» := false }
  | some raw =>
    match parse raw with
    | some data => { «exists» := true, data := some data, foundAt := some path }
    | none => { «exists» := false }

/-- `writeState` from `src/state/manager.ts` (its successful branch: in
the pure filesystem model directory creation and writes cannot fail, so
the `success = false` branch is unreachable).  `stringify` stands in for
`JSON.stringify(data, null, 2)`. -/
def writeState {α : Type} (stringify : α → String) (env : SysEnv) (fs : FS) (name : String)
    (data : α) (location : StateLocation := .«local») (cwd : Option String := none) :
    FS × StateWriteResult :=
  let path := getStatePath env name location cwd
  (fsWrite fs path (stringify data), { success := true, path := path })

/-- `updateState` from `src/state/manager.ts`: read, transform (the
updater sees `none` when no prior state exists), write back. -/
def updateState {α : Type} (parse : String → Option α) (stringify : α → String)
    (env : SysEnv) (fs : FS) (name : String) (updater : Option α → α)
    (location : StateLocation := .«local») (cwd : Option String := none) :
    FS × StateWriteResult :=
  let r := readState parse env fs name location cwd
  writeState stringify env fs name (updater r.data) location cwd

/-- JSONL file-name convention of `appendState`/`readAppendLog`. -/
def jsonlName (name : String) : String :=
  if strEndsWith name ".jsonl" then name else name ++ ".jsonl"

/-- `appendState` from `src/state/manager.ts` (successful branch):
append one serialized entry plus a newline to the log file. -/
def appendState {α : Type} (stringify : α → String) (env : SysEnv) (fs : FS) (name : String)
    (entry : α) (location : StateLocation := .global) (cwd : Option String := none) :
    FS × StateWriteResult :=
  let path := getStatePath env (jsonlName name) location cwd
  let existing := (fsRead fs path).getD ""
  (fsWrite fs path (existing ++ stringify entry ++ "\n"),
    { success := true, path := path })

/-- `readAppendLog` from `src/state/manager.ts`: missing file yields `[]`;
otherwise split on newlines, keep the non-blank lines, and map
`JSON.parse` over them inside one `try/catch` — so one parse exception
(`parse` returning `none`, sequenced by `mapM`) makes the whole call
return `[]`. -/
def readAppendLog {α : Type} (parse : String → Option α) (env : SysEnv) (fs : FS)
    (name : String) (location : StateLocation := .global) (cwd : Option String := none) :
    List α :=
  match fsRead fs (getStatePath env (jsonlName name) location cwd) with
  | none => []
  | some raw =>
    match ((splitLines raw.data).filter fun line =>
        0 < (jsTrim line).length).mapM (fun line => parse ⟨line⟩) with
    | some entries => entries
    | none => []

/-- `stateExists` from `src/state/manager.ts`. -/
def stateExists (env : SysEnv) (fs : FS) (name : String)
    (location : StateLocation := .«local») (cwd : Option String := none) : Bool :=
  (fsRead fs (getStatePath env name location cwd)).isSome

/-- `clearState` from `src/state/manager.ts`: `true` exactly when the
file existed and was removed. -/
def clearState (env : SysEnv) (fs : FS) (name : String)
    (location : StateLocation := .«local») (cwd : Option String := none) : FS × Bool :=
  let path := getStatePath env name location cwd
  match fsRead fs path with
  | none => (fs, false)
  | some _ => (fsErase fs path, true)

/-- A concrete stand-in for `JSON.parse` on documents that are
non-negative integer literals, used by log witnesses: it agrees with
`JSON.parse` there (`1` parses, `not-json` throws). -/
def natLineParse (s : String) : Option Nat :=
  if s.data ≠ [] ∧ s.data.all Char.isDigit then
    some (s.data.foldl (fun a c => a * 10 + (c.toNat - 48)) 0)
  else none

/-! ## Configuration loader (`src/config/loader.ts`)

The loader works on dynamic JSONC data, so it is embedded over a dynamic
value type `JsVal`.  `deepMerge` recurses into nested objects; the
embedding drives that recursion with a fuel argument consumed once per
processed source entry and per descent, so any fuel at least the total
size of the (finite) source value computes the source's result, and the
theorems quantify over the fuel or ask for enough of it. -/

/-- A dynamic JavaScript value as the configuration loader sees it:
`undefined`, `null`, booleans, (integral) numbers, strings, arrays, and
plain objects as ordered association lists with unique keys. -/
inductive JsVal where
  | undefined : JsVal
  | null : JsVal
  | bool (b : Bool) : JsVal
  | num (n : Int) : JsVal
  | str (s : String) : JsVal
  | arr (elems : List JsVal) : JsVal
  | obj (fields : List (String × JsVal)) : JsVal
deriving Repr

/-- `fields[key]` on a JS object: `undefined` when the key is absent. -/
def getKey : List (String × JsVal) → String → JsVal
  | [], _ => .undefined
  | (k, v) :: rest, key => if k = key then v else getKey rest key

/-- `result[key] = v` on a JS object: update in place when the key
exists, append it otherwise (JS insertion order). -/
def setKey : List (String × JsVal) → String → JsVal → List (String × JsVal)
  | [], key, v => [(key, v)]
  | (k, w) :: rest, key, v =>
    if k = key then (k, v) :: rest else (k, w) :: setKey rest key v

/-- `Object.keys`/spread view of a value, as `deepMerge` consumes it:
objects expose their fields, arrays and strings their index-keyed
elements, other primitives nothing. -/
def jsFields : JsVal → List (String × JsVal)
  | .obj f => f
  | .arr l => l.enum.map fun p => (toString p.1, p.2)
  | .str s => s.data.enum.map fun p => (toString p.1, .str ⟨[p.2]⟩)
  | _ => []

/-- JS truthiness of a dynamic value. -/
def jsTruthy : JsVal → Bool
  | .undefined => false
  | .null => false
  | .bool b => b
  | .num n => n ≠ 0
  | .str s => s ≠ ""
  | .arr _ => true
  | .obj _ => true

/-- The key-by-key loop of `deepMerge` from `src/config/loader.ts`, over
the current result object `t` and the remaining source entries: an
`undefined` source value is skipped, two plain objects merge recursively,
anything else replaces the key wholesale.  One fuel unit is consumed per
step; with fuel `0` the remaining source entries are ignored (never
reached from a fuel at least the source's size). -/
def deepMergeFields : Nat → List (String × JsVal) → List (String × JsVal) →
    List (String × JsVal)
  | 0, t, _ => t
  | _ + 1, t, [] => t
  | fuel + 1, t, (k, sv) :: rest =>
    match sv, getKey t k with
    | .undefined, _ => deepMergeFields fuel t rest
    | .obj sf, .obj tf =>
      deepMergeFields fuel (setKey t k (.obj (deepMergeFields fuel tf sf))) rest
    | _, _ => deepMergeFields fuel (setKey t k sv) rest

/-- `deepMerge(target, source)` from `src/config/loader.ts`: start from
`\x7b...target\x7d` and fold the source's keys over it. -/
def deepMerge (fuel : Nat) (target source : JsVal) : JsVal :=
  .obj (deepMergeFields fuel (jsFields target) (jsFields source))

/-- `DEFAULT_CONFIG` from `src/config/loader.ts`. -/
def DEFAULT_CONFIG : JsVal :=
  .obj [("features", .obj [("sessionStartContext", .bool true), ("magicKeywords", .bool true)]),
        ("permissions", .obj [("maxBackgroundTasks", .num 5)])]

/-- The length of the leading decimal-digit run of `cs`, as a number
(`none` when there is no leading digit). -/
def leadingDigits (cs : List Char) : Option Nat :=
  match cs.takeWhile Char.isDigit with
  | [] => none
  | ds => some (ds.foldl (fun a c => a * 10 + (c.toNat - 48)) 0)

/-- JS `parseInt(str, 10)`: skip leading whitespace, allow one sign, read
the leading digit run; `none` embeds `NaN`. -/
def jsParseInt (s : String) : Option Int :=
  match s.data.dropWhile jsWhitespace with
  | '-' :: rest => (leadingDigits rest).map fun n => -(n : Int)
  | '+' :: rest => (leadingDigits rest).map fun n => (n : Int)
  | cs => (leadingDigits cs).map fun n => (n : Int)

/-- `loadEnvConfig` from `src/config/loader.ts`, over the two recognized
environment variables: `KW_PLUGIN_SESSION_CONTEXT` maps to
`features.sessionStartContext` as the comparison with the exact string
`true`, and `KW_PLUGIN_MAX_BACKGROUND_TASKS` maps through `parseInt` to
`permissions.maxBackgroundTasks`, silently ignored when it is `NaN`. -/
def loadEnvConfig (sessionContext maxTasks : Option String) : JsVal :=
  .obj
    ((match sessionContext with
      | some s => [("features", JsVal.obj [("sessionStartContext", JsVal.bool (s = "true"))])]
      | none => []) ++
     (match maxTasks with
      | some m =>
        match jsParseInt m with
        | some n => [("permissions", JsVal.obj [("maxBackgroundTasks", JsVal.num n)])]
        | none => []
      | none => []))

/-- `loadConfig` from `src/config/loader.ts`: defaults, then the user
file, then the project file (each contributing only when present and
truthy, as `loadJsoncFile` returns `null` on a missing or unparsable
file), then the environment overrides when non-empty. -/
def loadConfig (fuel : Nat) (userConfig projectConfig : Option JsVal)
    (envSession envMaxTasks : Option String) : JsVal :=
  let config1 : JsVal := .obj (jsFields DEFAULT_CONFIG)
  let config2 := match userConfig with
    | some u => if jsTruthy u then deepMerge fuel config1 u else config1
    | none => config1
  let config3 := match projectConfig with
    | some p => if jsTruthy p then deepMerge fuel config2 p else config2
    | none => config2
  let env := loadEnvConfig envSession envMaxTasks
  if (jsFields env).length ≠ 0 then deepMerge fuel config3 env else config3

/-- Field access along a path of keys (`undefined` off the object part). -/
def getPath (v : JsVal) : List String → JsVal
  | [] => v
  | key :: rest =>
    match v with
    | .obj f => getPath (getKey f key) rest
    | _ => .undefined

/-! ### `deepMerge` at the level of object references

To state that `deepMerge` never mutates its first argument, the same
source function is embedded once more with JS reference semantics made
explicit: plain objects live in a heap and are passed by reference, and
every write (`result = \x7b...target\x7d`, `result[key] = v`) targets a
freshly allocated object.  The embedding allocates each merged child
before its parent (allocation order does not affect any observable
below), and, being fuel-driven, returns `none` when the fuel runs out. -/

/-- A JS value under reference semantics: a plain object is a heap
reference, anything else (primitives and, treated wholesale by
`deepMerge`, arrays) is carried as a value. -/
inductive HVal where
  | prim (v : JsVal) : HVal
  | ref (r : Nat) : HVal
deriving Repr

/-- A heap object: its ordered fields. -/
abbrev HObj := List (String × HVal)

/-- The heap: objects indexed by allocation order. -/
abbrev Heap := List HObj

/-- `fields[key]` under reference semantics. -/
def getKeyH : HObj → String → HVal
  | [], _ => .prim .undefined
  | (k, v) :: rest, key => if k = key then v else getKeyH rest key

/-- `result[key] = v` under reference semantics (on the fresh object's
field list: the heap itself is never written in place). -/
def setKeyH : HObj → String → HVal → HObj
  | [], key, v => [(key, v)]
  | (k, w) :: rest, key, v =>
    if k = key then (k, v) :: rest else (k, w) :: setKeyH rest key v

/-- The key-by-key loop of `deepMerge` under reference semantics: `acc`
is the field list of the result object under construction (started as a
copy of the target's fields), and merging two object references
allocates the merged child at the end of the heap. -/
def deepMergeEntriesH : Nat → Heap → HObj → List (String × HVal) → Option (Heap × HObj)
  | 0, _, _, _ => none
  | _ + 1, h, acc, [] => some (h, acc)
  | fuel + 1, h, acc, (k, sv) :: rest =>
    match sv, getKeyH acc k with
    | .prim .undefined, _ => deepMergeEntriesH fuel h acc rest
    | .ref rs, .ref rt =>
      match deepMergeEntriesH fuel h (h.getD rt []) (h.getD rs []) with
      | none => none
      | some (h', fields) =>
        deepMergeEntriesH fuel (h' ++ [fields]) (setKeyH acc k (.ref h'.length)) rest
    | _, _ => deepMergeEntriesH fuel h (setKeyH acc k sv) rest

/-- `deepMerge(target, source)` under reference semantics: run the loop
on a copy of the target's fields and allocate the result. -/
def deepMergeH (fuel : Nat) (h : Heap) (rt rs : Nat) : Option (Heap × Nat) :=
  match deepMergeEntriesH fuel h (h.getD rt []) (h.getD rs []) with
  | none => none
  | some (h', fields) => some (h' ++ [fields], h'.length)

/-! ## C5 — the merge keeps untouched siblings and never mutates its
first argument -/

/-- The cascade example's base: `\x7bfeatures: \x7ba: true\x7d, perm: \x7bn: 5\x7d\x7d`. -/
def cascadeBase : JsVal :=
  .obj [("features", .obj [("a", .bool true)]), ("perm", .obj [("n", .num 5)])]

/-- The cascade example's layer: `\x7bfeatures: \x7ba: false\x7d\x7d`. -/
def cascadeLayer : JsVal := .obj [("features", .obj [("a", .bool false)])]

/-- A concrete heap for the frame witness: object 0 is a nested child,
object 1 (`\x7bfeatures: ref 0\x7d`) is the merge target, object 2
(`\x7bx: 7\x7d`) is the merge source. -/
def frameHeap : Heap :=
  [[("a", HVal.prim (JsVal.bool true))],
   [("features", HVal.ref 0)],
   [("x", HVal.prim (JsVal.num 7))]]

theorem findSub_bound (pat : List Char) :
    ∀ (s : List Char) (i : Nat), findSub pat s = some i → i + pat.length ≤ s.length := by
  intro s
  induction s with
  | nil =>
    intro i h
    simp only [findSub] at h
    split at h
    · rename_i hp
      cases h
      simpa using List.IsPrefix.length_le (List.isPrefixOf_iff_prefix.mp hp)
    · simp at h
  | cons c t ih =>
    intro i h
    simp only [findSub] at h
    split at h
    · rename_i hp
      cases h
      simpa using List.IsPrefix.length_le (List.isPrefixOf_iff_prefix.mp hp)
    · simp only [Option.map_eq_some'] at h
      obtain ⟨j, hj, rfl⟩ := h
      have := ih j hj
      simp only [List.length_cons]
      omega

/-! ## C1 — identity behaviour of `applyKeywordOverrides` -/

/-- C1, counterexample: the claim says `applyKeywordOverrides(table, {})`
returns the very table reference that was passed in, but an empty
overrides record is truthy in JS, so the source takes the `.map` path and
allocates a fresh (merely value-equal) array: on the one-keyword table
`[reviewKw]` the call returns a fresh array, not the original
reference. -/
theorem applyKeywordOverrides_emptyRecord_fresh :
    applyKeywordOverridesRef [reviewKw] (some []) = ArrayResult.fresh [reviewKw] ∧
    applyKeywordOverridesRef [reviewKw] (some []) ≠ ArrayResult.original := by
  constructor
  · decide
  · decide

/-- C1 (amended): `applyKeywordOverrides(table, undefined)` returns the
identical table reference; `applyKeywordOverrides(table, \x7b\x7d)` (an
empty overrides record) returns a freshly allocated array whose value is
element-wise equal to the table.  (This holds for every table, hence in
particular for tables with unique names.) -/
theorem applyKeywordOverrides_identity (keywords : List MagicKeyword) :
    applyKeywordOverridesRef keywords none = ArrayResult.original ∧
    applyKeywordOverrides keywords none = keywords ∧
    applyKeywordOverridesRef keywords (some []) = ArrayResult.fresh keywords ∧
    applyKeywordOverrides keywords (some []) = keywords := by
  refine ⟨rfl, rfl, ?_, ?_⟩ <;>
    simp [applyKeywordOverridesRef, applyKeywordOverrides, lookupOverride]

theorem isWordChar_of_ciEq (a b : Char) (he : ciEq a b = true)
    (ha : isWordChar a = true) : isWordChar b = true := by
  simp only [ciEq, caseFold, isWordChar, decide_eq_true_eq] at *
  split at he <;> split at he <;> omega

theorem drop_succ_of_drop_cons {s : List Char} {i : Nat} {d : Char} {rest : List Char}
    (h : s.drop i = d :: rest) : s.drop (i + 1) = rest := by
  rw [← List.drop_drop, h]
  rfl

/-- Every position covered by a case-insensitive occurrence of an
all-word-characters phrase is a word character of `s`. -/
theorem wordAt_of_ciPrefix :
    ∀ (t : List Char) (s : List Char) (i : Nat),
      ciPrefix t (s.drop i) = true → t.all isWordChar = true →
      ∀ j, j < t.length → wordAt s (i + j) = true := by
  intro t
  induction t with
  | nil =>
    intro s i _ _ j hj
    simp at hj
  | cons c ts ih =>
    intro s i hpre hall j hj
    match hd : s.drop i with
    | [] => rw [hd] at hpre; simp [ciPrefix] at hpre
    | d :: rest =>
      rw [hd] at hpre
      simp only [ciPrefix, Bool.and_eq_true] at hpre
      simp only [List.all_cons, Bool.and_eq_true] at hall
      match j with
      | 0 =>
        have : isWordChar d = true := isWordChar_of_ciEq c d hpre.1 hall.1
        simp only [Nat.add_zero, wordAt, hd, this]
      | j + 1 =>
        have hdrop : s.drop (i + 1) = rest := drop_succ_of_drop_cons hd
        have := ih s (i + 1) (by rw [hdrop]; exact hpre.2) hall.2 j
          (by simp only [List.length_cons] at hj; omega)
        have harith : i + 1 + j = i + (j + 1) := by omega
        rwa [harith] at this

/-- If every trigger is a non-empty all-word-characters phrase whose
occurrences in `s` all sit strictly inside longer words, the trigger
regex does not match `s`. -/
theorem regexTest_eq_false_of_inside (s : List Char) (triggers : List String)
    (hw : ∀ t ∈ triggers, (!t.data.isEmpty && t.data.all isWordChar) = true)
    (hocc : ∀ t ∈ triggers, occursOnlyInsideWords s t.data = true) :
    regexTest triggers s = false := by
  rw [regexTest, List.any_eq_false]
  intro tr htr
  rw [Bool.not_eq_true, List.any_eq_false]
  intro i hi
  rw [Bool.not_eq_true]
  by_contra hmt
  rw [Bool.not_eq_false] at hmt
  simp only [triggerMatchAt, Bool.and_eq_true] at hmt
  obtain ⟨⟨hpre, hb1⟩, hb2⟩ := hmt
  have hwt := hw tr htr
  simp only [Bool.and_eq_true, Bool.not_eq_true'] at hwt
  obtain ⟨hne, hall⟩ := hwt
  have hlen : 1 ≤ tr.data.length := by
    cases htd : tr.data
    · rw [htd] at hne; simp [List.isEmpty] at hne
    · simp [htd]
  have hover := hocc tr htr
  rw [occursOnlyInsideWords, List.all_eq_true] at hover
  have hflank := hover i hi
  simp only [hpre, Bool.not_true, Bool.false_or, Bool.or_eq_true, Bool.and_eq_true,
    decide_eq_true_eq] at hflank
  have hchars := wordAt_of_ciPrefix tr.data s i hpre hall
  obtain ⟨hi0, hwl⟩ | hwr := hflank
  · -- flanked on the left: the boundary before the match cannot hold
    have hword : wordAt s i = true := by
      have := hchars 0 (by omega)
      simpa using this
    rw [boundaryAt] at hb1
    rw [if_neg (by omega : ¬ i = 0)] at hb1
    rw [hwl, hword] at hb1
    simp at hb1
  · -- flanked on the right: the boundary after the match cannot hold
    have hlast : wordAt s (i + (tr.data.length - 1)) = true :=
      hchars (tr.data.length - 1) (by omega)
    rw [boundaryAt] at hb2
    rw [if_neg (by omega : ¬ i + tr.data.length = 0)] at hb2
    have harith : i + tr.data.length - 1 = i + (tr.data.length - 1) := by omega
    rw [harith, hlast, hwr] at hb2
    simp at hb2

/-- C3, counterexample: the claim conditions the trigger's occurrences on
the prompt itself, and there it fails.  In
`preview rev(fence)x(fence)iew` the only occurrence of `review` lies
inside the longer word `preview` (the first conjunct checks, position by
position, that every occurrence in the prompt is flanked by a word
character), and the trigger is a non-empty word-character phrase — yet
sanitization removes the fenced `x` and splices `rev` onto `iew`, the
sanitized prompt becomes `preview review`, and the keyword fires. -/
theorem detectKeywords_substring_only_cex :
    occursOnlyInsideWords "preview rev```x```iew".data "review".data = true ∧
    (!"review".data.isEmpty && "review".data.all isWordChar) = true ∧
    detectKeywords "preview rev```x```iew" [reviewKw] = [reviewKw] := by
  refine ⟨by decide, by decide, ?_⟩
  have hf : ([reviewKw].filter fun k =>
      regexTest k.triggers (sanitizePrompt "preview rev```x```iew").data) = [reviewKw] := by
    decide
  show ([reviewKw].filter fun k =>
      regexTest k.triggers (sanitizePrompt "preview rev```x```iew").data).mergeSort
        (fun a b => a.priority ≤ b.priority) = [reviewKw]
  rw [hf]
  simp

/-- C3 (amended): trigger matching has whole-word boundary semantics on
the text that detection actually scans — the sanitized prompt.  If every
occurrence of a keyword's (non-empty, word-character) triggers in the
sanitized prompt sits strictly inside a longer word — flanked by a word
character on at least one side, as `review` inside `preview` — then
`detectKeywords` reports no match for that keyword.  (Measuring the
occurrences in the raw prompt instead is exactly what the counterexample
refutes: sanitization can splice the text around a removed span into a
fresh, boundary-clean occurrence.) -/
theorem detectKeywords_no_substring_match (prompt : String) (kw : MagicKeyword)
    (hw : ∀ t ∈ kw.triggers, (!t.data.isEmpty && t.data.all isWordChar) = true)
    (hocc : ∀ t ∈ kw.triggers,
      occursOnlyInsideWords (sanitizePrompt prompt).data t.data = true) :
    detectKeywords prompt [kw] = [] := by
  have hfalse : regexTest kw.triggers (sanitizePrompt prompt).data = false :=
    regexTest_eq_false_of_inside _ _ hw hocc
  show ([kw].filter fun k => regexTest k.triggers (sanitizePrompt prompt).data).mergeSort
      (fun a b => a.priority ≤ b.priority) = []
  simp [hfalse]

/-- C3, witness for the amended theorem: the prompt `preview the file`
sanitizes to itself, contains `review` only inside the longer word
`preview`, and the `review` keyword indeed does not fire there. -/
theorem detectKeywords_no_substring_match_witness :
    detectKeywords "preview the file" [reviewKw] = [] :=
  detectKeywords_no_substring_match "preview the file" reviewKw (by decide) (by decide)

/-! ## C8 — triggers inside fenced code blocks -/

theorem findSub_fence_none {s : List Char} (h : s.all (fun ch => ch ≠ '`') = true) :
    findSub fenceChars s = none := by
  induction s with
  | nil => rfl
  | cons c t ih =>
    simp only [List.all_cons, Bool.and_eq_true, decide_eq_true_eq] at h
    have hpre : fenceChars.isPrefixOf (c :: t) = false := by
      simp only [fenceChars, List.isPrefixOf]
      have : ('`' == c) = false := by
        simp only [beq_eq_false_iff_ne, ne_eq]
        exact fun he => h.1 he.symm
      rw [this]
      rfl
    rw [findSub, hpre]
    simp only [Bool.false_eq_true, if_false]
    rw [ih (by simpa [List.all_eq_true] using h.2)]
    rfl

theorem stripFencedAux_of_none {s : List Char} (h : findSub fenceChars s = none) :
    ∀ fuel, stripFencedAux fuel s = s := by
  intro fuel
  cases fuel with
  | zero => rfl
  | succ f => rw [stripFencedAux, h]

theorem findSub_fence_append {a : List Char} (rest : List Char)
    (h : a.all (fun ch => ch ≠ '`') = true) :
    findSub fenceChars (a ++ '`' :: '`' :: '`' :: rest) = some a.length := by
  induction a with
  | nil =>
    rw [List.nil_append, findSub]
    have : fenceChars.isPrefixOf ('`' :: '`' :: '`' :: rest) = true := by
      simp [fenceChars, List.isPrefixOf]
    rw [this]
    rfl
  | cons c t ih =>
    simp only [List.all_cons, Bool.and_eq_true, decide_eq_true_eq] at h
    have hpre : fenceChars.isPrefixOf (c :: (t ++ '`' :: '`' :: '`' :: rest)) = false := by
      simp only [fenceChars, List.isPrefixOf]
      have : ('`' == c) = false := by
        simp only [beq_eq_false_iff_ne, ne_eq]
        exact fun he => h.1 he.symm
      rw [this]
      rfl
    rw [List.cons_append, findSub, hpre]
    simp only [Bool.false_eq_true, if_false]
    rw [ih (by simpa [List.all_eq_true] using h.2)]
    rfl

theorem drop_append_fence (a rest : List Char) :
    (a ++ '`' :: '`' :: '`' :: rest).drop (a.length + 3) = rest := by
  have h1 : (a ++ '`' :: '`' :: '`' :: rest).drop a.length = '`' :: '`' :: '`' :: rest := by
    rw [List.drop_left]
  have h2 : (a ++ '`' :: '`' :: '`' :: rest).drop (a.length + 3) =
      ((a ++ '`' :: '`' :: '`' :: rest).drop a.length).drop 3 := by
    rw [List.drop_drop]
  rw [h2, h1]
  rfl

/-- Removing one well-delimited fenced block: on `A ++ fence ++ B ++ fence
++ C` with `A`, `B`, `C` backtick-free, the fence pass deletes the block
and returns `A ++ C`. -/
theorem stripFencedAux_block (A B C : List Char)
    (hA : A.all (fun ch => ch ≠ '`') = true)
    (hB : B.all (fun ch => ch ≠ '`') = true)
    (hC : C.all (fun ch => ch ≠ '`') = true) :
    ∀ fuel, 1 ≤ fuel →
      stripFencedAux fuel (A ++ '`' :: '`' :: '`' :: (B ++ '`' :: '`' :: '`' :: C)) =
        A ++ C := by
  intro fuel hfuel
  match fuel, hfuel with
  | f + 1, _ =>
    rw [stripFencedAux]
    rw [findSub_fence_append (B ++ '`' :: '`' :: '`' :: C) hA]
    dsimp only
    rw [drop_append_fence]
    rw [findSub_fence_append C hB]
    dsimp only
    rw [drop_append_fence]
    rw [stripFencedAux_of_none (findSub_fence_none hC)]
    rw [List.take_left]

/-- The sanitized form of a prompt with one well-delimited fenced block is
the sanitized form of the prompt with the block removed. -/
theorem sanitizePrompt_fenced_block (a b c : String)
    (ha : a.data.all (fun ch => ch ≠ '`') = true)
    (hb : b.data.all (fun ch => ch ≠ '`') = true)
    (hc : c.data.all (fun ch => ch ≠ '`') = true) :
    sanitizePrompt (a ++ "```" ++ b ++ "```" ++ c) = sanitizePrompt (a ++ c) := by
  have hdata : (a ++ "```" ++ b ++ "```" ++ c).data =
      a.data ++ '`' :: '`' :: '`' :: (b.data ++ '`' :: '`' :: '`' :: c.data) := by
    simp [String.data_append]
  have hac : (a ++ c).data = a.data ++ c.data := by simp [String.data_append]
  have hnoac : (a.data ++ c.data).all (fun ch => ch ≠ '`') = true := by
    rw [List.all_append, ha, hc]
    rfl
  have hfuel : 1 ≤ (a.data ++ '`' :: '`' :: '`' :: (b.data ++ '`' :: '`' :: '`' :: c.data)).length := by
    simp only [List.length_append, List.length_cons]
    omega
  have h1 : stripFenced (a ++ "```" ++ b ++ "```" ++ c).data = a.data ++ c.data := by
    rw [hdata]
    exact stripFencedAux_block a.data b.data c.data ha hb hc _ hfuel
  have h2 : stripFenced (a ++ c).data = a.data ++ c.data := by
    rw [hac]
    exact stripFencedAux_of_none (findSub_fence_none hnoac) _
  unfold sanitizePrompt
  rw [h1, h2]

/-- If no trigger occurs (case-insensitively) anywhere in `s`, the trigger
regex does not match `s`. -/
theorem regexTest_eq_false_of_no_occurrence (s : List Char) (triggers : List String)
    (h : ∀ t ∈ triggers,
      ((List.range (s.length + 1)).all fun i => !(ciPrefix t.data (s.drop i))) = true) :
    regexTest triggers s = false := by
  rw [regexTest, List.any_eq_false]
  intro tr htr
  rw [Bool.not_eq_true, List.any_eq_false]
  intro i hi
  rw [Bool.not_eq_true]
  have hocc := h tr htr
  rw [List.all_eq_true] at hocc
  have := hocc i hi
  simp only [Bool.not_eq_true'] at this
  simp [triggerMatchAt, this]

/-- C8, counterexample: the claim fails on the prompt
`re(fence) review (fence)view`.  Its only occurrence of the trigger
`review` (the Boolean conjunct checks every position of the prompt) lies
at indices 6–11, inside the fenced block whose content spans indices
5–12, yet removing the block splices `re` onto `view` and the sanitized
prompt becomes exactly `review`, so the keyword fires. -/
theorem detectKeywords_fenced_block_cex :
    ((List.range ("re``` review ```view".data.length + 1)).all fun i =>
      !(ciPrefix "review".data ("re``` review ```view".data.drop i)) ||
        (decide (5 ≤ i) && decide (i + 6 ≤ 13))) = true ∧
    detectKeywords "re``` review ```view" [reviewKw] = [reviewKw] := by
  constructor
  · decide
  · have hf : ([reviewKw].filter fun k =>
        regexTest k.triggers (sanitizePrompt "re``` review ```view").data) = [reviewKw] := by
      decide
    show ([reviewKw].filter fun k =>
        regexTest k.triggers (sanitizePrompt "re``` review ```view").data).mergeSort
          (fun a b => a.priority ≤ b.priority) = [reviewKw]
    rw [hf]
    simp

/-- C8 (amended): for a prompt built around one well-delimited fenced
code block — `a + fence + b + fence + c` with `a`, `b`, `c` free of
backticks — whatever trigger text sits inside the block is discarded by
sanitization, and if no trigger of the keyword occurs in the sanitized
remainder (in particular the splice of `a` and `c` creates no new
occurrence), `detectKeywords` reports no match for the keyword.  (The
extra proviso is forced by the counterexample: removal concatenates the
text around the block, which can create an occurrence that was not there
before.) -/
theorem detectKeywords_fenced_block (a b c : String) (kw : MagicKeyword)
    (ha : a.data.all (fun ch => ch ≠ '`') = true)
    (hb : b.data.all (fun ch => ch ≠ '`') = true)
    (hc : c.data.all (fun ch => ch ≠ '`') = true)
    (hno : ∀ t ∈ kw.triggers,
      ((List.range ((sanitizePrompt (a ++ c)).data.length + 1)).all fun i =>
        !(ciPrefix t.data ((sanitizePrompt (a ++ c)).data.drop i))) = true) :
    detectKeywords (a ++ "```" ++ b ++ "```" ++ c) [kw] = [] := by
  have hsan := sanitizePrompt_fenced_block a b c ha hb hc
  have hfalse : regexTest kw.triggers (sanitizePrompt (a ++ "```" ++ b ++ "```" ++ c)).data = false := by
    rw [hsan]
    exact regexTest_eq_false_of_no_occurrence _ _ hno
  show ([kw].filter fun k =>
      regexTest k.triggers (sanitizePrompt (a ++ "```" ++ b ++ "```" ++ c)).data).mergeSort
        (fun x y => x.priority ≤ y.priority) = []
  simp [hfalse]

/-- C8, witness for the amended theorem: `check (fence)review(fence) ok`
has its trigger only inside the fence, the splice `check  ok` contains no
occurrence, and the keyword indeed does not fire. -/
theorem detectKeywords_fenced_block_witness :
    detectKeywords ("check " ++ "```" ++ "review" ++ "```" ++ " ok") [reviewKw] = [] :=
  detectKeywords_fenced_block "check " "review" " ok" reviewKw
    (by decide) (by decide) (by decide) (by decide)

theorem priorityLe_trans (a b c : MagicKeyword) :
    priorityLe a b → priorityLe b c → priorityLe a c := by
  simp only [priorityLe, decide_eq_true_eq]
  omega

theorem priorityLe_total (a b : MagicKeyword) : priorityLe a b || priorityLe b a := by
  simp only [priorityLe, Bool.or_eq_true, decide_eq_true_eq]
  omega

theorem detectKeywords_eq_mergeSort (prompt : String) (keywords : List MagicKeyword) :
    detectKeywords prompt keywords =
      (keywords.filter fun kw =>
        regexTest kw.triggers (sanitizePrompt prompt).data).mergeSort priorityLe := rfl

/-- C4: `detectKeywords` returns the matching keywords sorted ascending by
`priority`, and keywords of equal priority keep the relative order they
had in the table (the filtered match list): for every priority value `c`,
the equal-priority subsequence of the result is exactly the
equal-priority subsequence of the matches in table order.  In particular,
on the prompt `please do a thorough review of my code` against the table
`[review (priority 1), thorough (priority 10)]` the result is
`[review, thorough]`. -/
theorem detectKeywords_sorted_stable :
    (∀ (prompt : String) (keywords : List MagicKeyword),
      (detectKeywords prompt keywords).Pairwise (fun a b => a.priority ≤ b.priority) ∧
      ∀ c : Int,
        (detectKeywords prompt keywords).filter (fun k => k.priority = c) =
          (keywords.filter fun kw =>
            regexTest kw.triggers (sanitizePrompt prompt).data).filter
              (fun k => k.priority = c)) ∧
    detectKeywords "please do a thorough review of my code" [reviewKw, thoroughKw] =
      [reviewKw, thoroughKw] := by
  constructor
  · intro prompt keywords
    rw [detectKeywords_eq_mergeSort]
    set matched :=
      keywords.filter fun kw => regexTest kw.triggers (sanitizePrompt prompt).data with hm
    constructor
    · have hs : (matched.mergeSort priorityLe).Pairwise fun a b => priorityLe a b :=
        List.sorted_mergeSort priorityLe_trans priorityLe_total matched
      exact hs.imp fun h => by simpa [priorityLe] using h
    · intro c
      set p := fun k : MagicKeyword => decide (k.priority = c) with hp
      have h1 : (matched.filter p).Pairwise fun a b => priorityLe a b := by
        apply List.pairwise_of_forall_mem_list
        intro a ha b hb
        have ha' := List.of_mem_filter ha
        have hb' := List.of_mem_filter hb
        simp only [hp, decide_eq_true_eq] at ha' hb'
        simp only [priorityLe, decide_eq_true_eq, ha', hb', le_refl]
      have h3 := List.sublist_mergeSort priorityLe_trans priorityLe_total h1
        (List.filter_sublist matched)
      have h4 := h3.filter p
      have hff : (matched.filter p).filter p = matched.filter p := by
        rw [List.filter_filter]
        congr 1
        funext a
        exact Bool.and_self (p a)
      rw [hff] at h4
      have h5 : ((matched.mergeSort priorityLe).filter p).length =
          (matched.filter p).length :=
        (((List.mergeSort_perm matched priorityLe).filter p)).length_eq
      exact (h4.eq_of_length h5.symm).symm
  · rw [detectKeywords_eq_mergeSort]
    have hf : ([reviewKw, thoroughKw].filter fun kw =>
        regexTest kw.triggers
          (sanitizePrompt "please do a thorough review of my code").data) =
        [reviewKw, thoroughKw] := by decide
    rw [hf]
    exact List.mergeSort_of_sorted (by decide)

/-! ## C9 — every payload continues -/

/-- C9: every branch of `buildKeywordOutput` and of `processKeywords`
produces a payload with `continue = true` (the core never blocks the
host), and zero matches produce no side-channel content (no
`hookSpecificOutput`). -/
theorem keyword_payload_always_continues :
    (∀ matched : List MagicKeyword, (buildKeywordOutput matched).«continue» = true) ∧
    (∀ (prompt : String) (config : Option PluginConfig) (baseKeywords : List MagicKeyword),
      (processKeywords prompt config baseKeywords).«continue» = true) ∧
    buildKeywordOutput [] = { «continue» := true, hookSpecificOutput := none } := by
  have hb : ∀ matched : List MagicKeyword, (buildKeywordOutput matched).«continue» = true := by
    intro matched
    match matched with
    | [] => rfl
    | [kw] => rfl
    | a :: b :: rest => rfl
  refine ⟨hb, ?_, rfl⟩
  intro prompt config baseKeywords
  unfold processKeywords
  split
  · rfl
  · split
    · rfl
    · exact hb _

/-! ## C7 — whole-document state round-trip -/

/-- C7: for every serializer/parser pair that round-trips (as Node's
`JSON.stringify`/`JSON.parse` do on JSON-serializable values), a
successful `writeState` followed by `readState` with the same name,
location and root returns `exists = true` with the written value and the
path it was stored at. -/
theorem state_roundtrip {α : Type} (stringify : α → String) (parse : String → Option α)
    (hcodec : ∀ v, parse (stringify v) = some v)
    (env : SysEnv) (fs : FS) (name : String) (location : StateLocation)
    (cwd : Option String) (v : α) :
    (writeState stringify env fs name v location cwd).2.success = true ∧
    readState parse env (writeState stringify env fs name v location cwd).1 name location cwd =
      { «exists» := true, data := some v,
        foundAt := some (getStatePath env name location cwd) } := by
  constructor
  · rfl
  · unfold readState writeState fsWrite fsRead
    simp [hcodec]

/-- C7, witness: writing the string `42` under `counter` and reading it
back (identity codec) finds it at the local state path. -/
theorem state_roundtrip_witness :
    readState some ⟨"/home/u", "/proj"⟩
        (writeState id ⟨"/home/u", "/proj"⟩ [] "counter" "42" .«local» none).1
        "counter" .«local» none =
      { «exists» := true, data := some "42",
        foundAt := some (getStatePath ⟨"/home/u", "/proj"⟩ "counter" .«local» none) } :=
  (state_roundtrip id some (fun _ => rfl) ⟨"/home/u", "/proj"⟩ [] "counter"
    .«local» none "42").2

/-! ## C2 — line handling of `readAppendLog` -/

theorem mapM_option_eq_some_filterMap {α β : Type} (f : α → Option β) :
    ∀ l : List α, (∀ x ∈ l, (f x).isSome = true) → l.mapM f = some (l.filterMap f) := by
  intro l
  induction l with
  | nil => intro; rfl
  | cons a rest ih =>
    intro h
    have ha := h a (List.mem_cons_self a rest)
    match hf : f a with
    | none => rw [hf] at ha; simp at ha
    | some b =>
      rw [List.mapM_cons, hf, ih fun x hx => h x (List.mem_cons_of_mem a hx)]
      simp [List.filterMap_cons, hf]

theorem mapM_option_eq_none {α β : Type} (f : α → Option β) :
    ∀ l : List α, (∃ x ∈ l, f x = none) → l.mapM f = none := by
  intro l
  induction l with
  | nil => rintro ⟨x, hx, -⟩; simp at hx
  | cons a rest ih =>
    rintro ⟨x, hx, hfx⟩
    rw [List.mapM_cons]
    rcases List.mem_cons.mp hx with rfl | hmem
    · rw [hfx]; rfl
    · match hf : f a with
      | none => rfl
      | some b => rw [ih ⟨x, hmem, hfx⟩]; rfl

/-- C2, counterexample: the claim says one corrupt line never discards
the other well-formed lines of the read, but the source maps `JSON.parse`
over the lines inside a single `try/catch`: on a log whose lines are `1`,
a blank, `not-json`, `2`, the two well-formed lines parse, yet the whole
read returns the empty array. -/
theorem readAppendLog_corrupt_line_cex :
    natLineParse "1" = some 1 ∧ natLineParse "2" = some 2 ∧
    readAppendLog natLineParse ⟨"/home/u", "/proj"⟩
      [(getStatePath ⟨"/home/u", "/proj"⟩ "usage.jsonl" .global none, "1\n\nnot-json\n2")]
      "usage" = [] := by
  refine ⟨rfl, rfl, ?_⟩
  decide

/-- C2 (amended): `readAppendLog` parses line by line and never raises: a
missing file yields the empty sequence and blank lines are skipped; when
every non-blank line parses, the call returns their values in order — but
when any non-blank line is corrupt, the single `try/catch` around the
whole mapping makes the call return the empty array, discarding the
well-formed lines too (whole-read-scoped, not line-scoped, recovery). -/
theorem readAppendLog_line_handling {α : Type} (parse : String → Option α)
    (env : SysEnv) (fs : FS) (name : String) (location : StateLocation)
    (cwd : Option String) :
    (fsRead fs (getStatePath env (jsonlName name) location cwd) = none →
      readAppendLog parse env fs name location cwd = []) ∧
    (∀ raw, fsRead fs (getStatePath env (jsonlName name) location cwd) = some raw →
      ((∀ line ∈ (splitLines raw.data).filter (fun l => 0 < (jsTrim l).length),
          (parse ⟨line⟩).isSome = true) →
        readAppendLog parse env fs name location cwd =
          ((splitLines raw.data).filter fun l =>
            0 < (jsTrim l).length).filterMap (fun line => parse ⟨line⟩)) ∧
      ((∃ line ∈ (splitLines raw.data).filter (fun l => 0 < (jsTrim l).length),
          parse ⟨line⟩ = none) →
        readAppendLog parse env fs name location cwd = [])) := by
  constructor
  · intro h
    unfold readAppendLog
    rw [h]
  · intro raw hraw
    constructor
    · intro hall
      unfold readAppendLog
      rw [hraw]
      dsimp only
      rw [mapM_option_eq_some_filterMap (fun line => parse ⟨line⟩) _ hall]
    · intro hsome
      unfold readAppendLog
      rw [hraw]
      dsimp only
      rw [mapM_option_eq_none (fun line => parse ⟨line⟩) _ hsome]

/-- C2, witness for the amended theorem: a log holding lines `1`, a
blank, `2` reads back as `[1, 2]` — blank lines skipped, order kept. -/
theorem readAppendLog_line_handling_witness :
    readAppendLog natLineParse ⟨"/home/u", "/proj"⟩
      [(getStatePath ⟨"/home/u", "/proj"⟩ "usage.jsonl" .global none, "1\n\n2\n")]
      "usage" = [1, 2] := by
  have h := ((readAppendLog_line_handling natLineParse ⟨"/home/u", "/proj"⟩
    [(getStatePath ⟨"/home/u", "/proj"⟩ "usage.jsonl" .global none, "1\n\n2\n")]
    "usage" .global none).2 "1\n\n2\n" (by decide)).1 (by decide)
  rw [h]
  decide

/-! ## C10 — default locations of the state primitives -/

theorem elemRev_append (X S : List Char) (n : Nat) (hn : n < S.length) :
    ((X ++ S).reverse)[n]? = S.reverse[n]? := by
  rw [List.reverse_append, List.getElem?_append]
  rw [if_pos (by simpa using hn)]

theorem localDir_data (env : SysEnv) :
    (getStateDir env .«local» none).data = env.processCwd.data ++ "/.kw-plugin/state".data := by
  show (env.processCwd ++ "/" ++ ".kw-plugin" ++ "/" ++ "state").data = _
  simp only [String.data_append, List.append_assoc]
  congr 1

theorem globalDir_data (env : SysEnv) :
    (getStateDir env .global none).data =
      env.homedir.data ++ "/.config/kw-plugin/state".data := by
  show (env.homedir ++ "/" ++ ".config" ++ "/" ++ "kw-plugin" ++ "/" ++ "state").data = _
  simp only [String.data_append, List.append_assoc]
  congr 1

theorem local_global_dir_ne (env : SysEnv) :
    getStateDir env .«local» none ≠ getStateDir env .global none := by
  intro h
  have hL : ((getStateDir env .«local» none).data.reverse)[15]? = some '.' := by
    rw [localDir_data, elemRev_append _ _ _ (by decide)]
    decide
  have hG : ((getStateDir env .global none).data.reverse)[15]? = some '/' := by
    rw [globalDir_data, elemRev_append _ _ _ (by decide)]
    decide
  rw [h, hG] at hL
  simp at hL

/-- C10: with the location argument omitted, the whole-document and
lifecycle primitives (`readState`, `writeState`, `stateExists`,
`clearState`) address the project-local state directory while the JSONL
primitives (`appendState`, `readAppendLog`) address the user-global one —
and those two roots are different paths for every home directory and
working directory, so a defaulted `writeState name` and a defaulted
`readAppendLog name` address files under different roots. -/
theorem state_default_locations {α : Type} (env : SysEnv) (fs : FS) (name : String)
    (v : α) (stringify : α → String) (parse : String → Option α) :
    (writeState stringify env fs name v).2.path = getStatePath env name .«local» none ∧
    readState parse env fs name = readState parse env fs name .«local» none ∧
    stateExists env fs name = stateExists env fs name .«local» none ∧
    clearState env fs name = clearState env fs name .«local» none ∧
    (appendState stringify env fs name v).2.path =
      getStatePath env (jsonlName name) .global none ∧
    readAppendLog parse env fs name = readAppendLog parse env fs name .global none ∧
    getStateDir env .«local» none ≠ getStateDir env .global none :=
  ⟨rfl, rfl, rfl, rfl, rfl, rfl, local_global_dir_ne env⟩

theorem deepMergeEntriesH_preserves :
    ∀ (fuel : Nat) (h : Heap) (acc : HObj) (src : List (String × HVal))
      (h' : Heap) (out : HObj),
      deepMergeEntriesH fuel h acc src = some (h', out) →
      (∀ i, i < h.length → h'[i]? = h[i]?) ∧ h.length ≤ h'.length := by
  intro fuel
  induction fuel with
  | zero => intro h acc src h' out hrun; simp [deepMergeEntriesH] at hrun
  | succ fuel ih =>
    intro h acc src h' out hrun
    match src with
    | [] =>
      rw [deepMergeEntriesH] at hrun
      cases hrun
      exact ⟨fun i _ => rfl, Nat.le_refl _⟩
    | (k, sv) :: rest =>
      rw [deepMergeEntriesH.eq_def] at hrun
      dsimp only at hrun
      split at hrun
      · exact ih _ _ _ _ _ hrun
      · split at hrun
        · simp at hrun
        · rename_i rs rt h1 fields hinner
          have hstep1 := ih _ _ _ _ _ hinner
          have hstep2 := ih _ _ _ _ _ hrun
          constructor
          · intro i hi
            have hi1 : i < h1.length := Nat.lt_of_lt_of_le hi hstep1.2
            have hi2 : i < (h1 ++ [fields]).length := by
              simp only [List.length_append, List.length_cons, List.length_nil]
              omega
            rw [hstep2.1 i hi2]
            rw [List.getElem?_append, if_pos hi1]
            exact hstep1.1 i hi
          · have := hstep2.2
            simp only [List.length_append, List.length_cons, List.length_nil] at this
            omega
      · exact ih _ _ _ _ _ hrun

theorem deepMergeH_preserves (fuel : Nat) (h : Heap) (rt rs : Nat)
    (h' : Heap) (r' : Nat) (hrun : deepMergeH fuel h rt rs = some (h', r')) :
    ∀ i, i < h.length → h'[i]? = h[i]? := by
  unfold deepMergeH at hrun
  split at hrun
  · simp at hrun
  · rename_i h1 fields hinner
    cases hrun
    intro i hi
    have hstep := deepMergeEntriesH_preserves fuel h (h.getD rt []) (h.getD rs []) h1
      fields hinner
    have hi1 : i < h1.length := Nat.lt_of_lt_of_le hi hstep.2
    rw [List.getElem?_append, if_pos hi1]
    exact hstep.1 i hi

/-! ### Key lemmas for the merge -/

theorem getKey_setKey_self :
    ∀ (t : List (String × JsVal)) (k : String) (v : JsVal),
      getKey (setKey t k v) k = v := by
  intro t k v
  induction t with
  | nil => simp [setKey, getKey]
  | cons hd rest ih =>
    obtain ⟨k', w⟩ := hd
    by_cases hk : k' = k
    · simp [setKey, getKey, hk]
    · simp [setKey, getKey, hk, ih]

theorem getKey_setKey_ne :
    ∀ (t : List (String × JsVal)) (k key : String) (v : JsVal), k ≠ key →
      getKey (setKey t k v) key = getKey t key := by
  intro t k key v hk
  induction t with
  | nil => simp [setKey, getKey, hk]
  | cons hd rest ih =>
    obtain ⟨k', w⟩ := hd
    by_cases hk' : k' = k
    · subst hk'
      simp [setKey, getKey, hk]
    · simp only [setKey, if_neg hk', getKey]
      by_cases hkey : k' = key
      · simp [hkey]
      · simp [hkey, ih]

/-- Keys that the source layer does not mention keep the value they have
in the (copied) target, whatever the fuel. -/
theorem getKey_deepMergeFields_of_not_mem :
    ∀ (fuel : Nat) (t src : List (String × JsVal)) (key : String),
      key ∉ src.map Prod.fst →
      getKey (deepMergeFields fuel t src) key = getKey t key := by
  intro fuel
  induction fuel with
  | zero => intro t src key _; rfl
  | succ fuel ih =>
    intro t src key hk
    match src with
    | [] => rfl
    | (k, sv) :: rest =>
      have hkk : k ≠ key := by
        simp only [List.map_cons, List.mem_cons] at hk
        exact fun he => hk (Or.inl he.symm)
      have hrest : key ∉ rest.map Prod.fst := by
        simp only [List.map_cons, List.mem_cons] at hk
        exact fun hm => hk (Or.inr hm)
      rw [deepMergeFields.eq_def]
      dsimp only
      split
      · exact ih t rest key hrest
      · rw [ih _ rest key hrest, getKey_setKey_ne _ _ _ _ hkk]
      · rw [ih _ rest key hrest, getKey_setKey_ne _ _ _ _ hkk]

/-- C5: `deepMerge` preserves untouched siblings and never mutates its
first argument: (i) any key the override layer does not mention keeps its
base value; (ii) on the cascade example, merging
`\x7bfeatures:\x7ba:false\x7d\x7d` into `\x7bfeatures:\x7ba:true\x7d,perm:\x7bn:5\x7d\x7d` gives
`features.a = false` with the untouched sibling `perm.n = 5`; and
(iii) under explicit reference semantics every heap object that existed
before the merge is unchanged after it — the base object (and everything
reachable from it) can be reused by the caller. -/
theorem deepMerge_frame :
    (∀ (fuel : Nat) (target source : JsVal) (key : String),
      key ∉ (jsFields source).map Prod.fst →
      getKey (jsFields (deepMerge fuel target source)) key =
        getKey (jsFields target) key) ∧
    (getPath (deepMerge 3 cascadeBase cascadeLayer) ["features", "a"] = .bool false ∧
     getPath (deepMerge 3 cascadeBase cascadeLayer) ["perm", "n"] = .num 5) ∧
    (∀ (fuel : Nat) (h : Heap) (rt rs : Nat) (h' : Heap) (r' : Nat),
      deepMergeH fuel h rt rs = some (h', r') →
      ∀ i, i < h.length → h'[i]? = h[i]?) := by
  refine ⟨?_, ⟨rfl, rfl⟩, deepMergeH_preserves⟩
  intro fuel target source key hk
  exact getKey_deepMergeFields_of_not_mem fuel _ _ key hk

/-- C5, witness: a merge leaves the unmentioned key `a` intact, and a
concrete heap-level merge extends the heap while leaving the target
object (index 1) untouched. -/
theorem deepMerge_frame_witness :
    getKey (jsFields (deepMerge 3 (JsVal.obj [("a", JsVal.bool true)])
      (JsVal.obj [("b", JsVal.null)]))) "a" = JsVal.bool true ∧
    deepMergeH 2 frameHeap 1 2 =
      some (frameHeap ++ [[("features", HVal.ref 0), ("x", HVal.prim (JsVal.num 7))]], 3) ∧
    (frameHeap ++ [[("features", HVal.ref 0), ("x", HVal.prim (JsVal.num 7))]])[1]? =
      frameHeap[1]? := by
  refine ⟨?_, rfl, ?_⟩
  · have h := deepMerge_frame.1 3 (JsVal.obj [("a", JsVal.bool true)])
      (JsVal.obj [("b", JsVal.null)]) "a" (by decide)
    rw [h]
    rfl
  · exact deepMerge_frame.2.2 2 frameHeap 1 2 _ 3 rfl 1 (by decide)

/-! ## C6 — environment overrides win -/

/-- Merging the environment layer
`("features" ↦ \x7bsessionStartContext: false\x7d) :: rest` into any current
configuration forces `features.sessionStartContext = false`, as long as
`rest` does not rebind `features`. -/
theorem getPath_deepMergeFields_env (f : Nat) (t0 rest : List (String × JsVal))
    (hrest : "features" ∉ rest.map Prod.fst) :
    getPath (.obj (deepMergeFields (f + 1 + 1 + 1) t0
      (("features", .obj [("sessionStartContext", .bool false)]) :: rest)))
      ["features", "sessionStartContext"] = .bool false := by
  have hcore : ∀ t1 : List (String × JsVal),
      getPath (.obj (deepMergeFields (f + 1 + 1)
        (setKey t0 "features" (.obj t1)) rest)) ["features", "sessionStartContext"] =
        getPath (.obj t1) ["sessionStartContext"] := by
    intro t1
    show getPath (getKey (deepMergeFields (f + 1 + 1)
      (setKey t0 "features" (.obj t1)) rest) "features") ["sessionStartContext"] = _
    rw [getKey_deepMergeFields_of_not_mem _ _ _ _ hrest, getKey_setKey_self]
  rw [deepMergeFields.eq_def]
  dsimp only
  cases hgk : getKey t0 "features" with
  | obj tf =>
    dsimp only
    rw [hcore]
    rw [deepMergeFields.eq_def]
    dsimp only
    rw [deepMergeFields.eq_def]
    dsimp only
    show getPath (getKey (setKey tf "sessionStartContext" (.bool false))
      "sessionStartContext") [] = .bool false
    rw [getKey_setKey_self]
    rfl
  | undefined => dsimp only; rw [hcore]; rfl
  | null => dsimp only; rw [hcore]; rfl
  | bool b => dsimp only; rw [hcore]; rfl
  | num n => dsimp only; rw [hcore]; rfl
  | str s => dsimp only; rw [hcore]; rfl
  | arr l => dsimp only; rw [hcore]; rfl

/-- C6: environment overrides have the highest precedence: whatever the
user and project configuration files contribute (in particular when the
project file sets `features.sessionStartContext` to `true`), setting
`KW_PLUGIN_SESSION_CONTEXT=false` makes the resolved configuration carry
`features.sessionStartContext = false`. -/
theorem loadConfig_env_override (fuel : Nat) (hfuel : 3 ≤ fuel)
    (userConfig projectConfig : Option JsVal) (envMaxTasks : Option String)
    (p : JsVal) (hproj : projectConfig = some p)
    (htrue : getPath p ["features", "sessionStartContext"] = .bool true) :
    getPath (loadConfig fuel userConfig projectConfig (some "false") envMaxTasks)
      ["features", "sessionStartContext"] = .bool false := by
  obtain ⟨f, rfl⟩ : ∃ f, fuel = f + 1 + 1 + 1 := ⟨fuel - 3, by omega⟩
  unfold loadConfig
  dsimp only
  cases envMaxTasks with
  | none =>
    have henv : loadEnvConfig (some "false") none =
        .obj [("features", .obj [("sessionStartContext", .bool false)])] := rfl
    rw [henv]
    rw [if_pos (by decide : (jsFields (JsVal.obj
      [("features", JsVal.obj [("sessionStartContext", JsVal.bool false)])])).length ≠ 0)]
    exact getPath_deepMergeFields_env f _ [] (by decide)
  | some m =>
    cases hpi : jsParseInt m with
    | none =>
      have henv : loadEnvConfig (some "false") (some m) =
          .obj [("features", .obj [("sessionStartContext", .bool false)])] := by
        unfold loadEnvConfig
        dsimp only
        rw [hpi]
        rfl
      rw [henv]
      rw [if_pos (by decide : (jsFields (JsVal.obj
        [("features", JsVal.obj [("sessionStartContext", JsVal.bool false)])])).length ≠ 0)]
      exact getPath_deepMergeFields_env f _ [] (by decide)
    | some n =>
      have henv : loadEnvConfig (some "false") (some m) =
          .obj [("features", .obj [("sessionStartContext", .bool false)]),
                ("permissions", .obj [("maxBackgroundTasks", .num n)])] := by
        unfold loadEnvConfig
        dsimp only
        rw [hpi]
        rfl
      rw [henv]
      have hcond : (jsFields (JsVal.obj
          [("features", JsVal.obj [("sessionStartContext", JsVal.bool false)]),
           ("permissions", JsVal.obj [("maxBackgroundTasks", JsVal.num n)])])).length ≠ 0 := by
        simp [jsFields]
      rw [if_pos hcond]
      exact getPath_deepMergeFields_env f _
        [("permissions", .obj [("maxBackgroundTasks", .num n)])] (by simp)

/-- C6, witness: a project file setting `features.sessionStartContext` to
`true` loses to `KW_PLUGIN_SESSION_CONTEXT=false`. -/
theorem loadConfig_env_override_witness :
    getPath (loadConfig 3 none
        (some (JsVal.obj [("features", JsVal.obj [("sessionStartContext", JsVal.bool true)])]))
        (some "false") none)
      ["features", "sessionStartContext"] = JsVal.bool false :=
  loadConfig_env_override 3 (by decide) none
    (some (JsVal.obj [("features", JsVal.obj [("sessionStartContext", JsVal.bool true)])]))
    none
    (JsVal.obj [("features", JsVal.obj [("sessionStartContext", JsVal.bool true)])])
    rfl rfl

end KwPlugin
